import Mathlib

/-!
# go-ttl-cache: a verification development for `cache.go`

The package `cache` is a map from string keys to items, each item holding an
arbitrary value and an expiration instant.  This file embeds the package in
Lean and proves properties of its operations.

Modelling conventions:

* A Go `string` is a sequence of bytes: `GoString := List UInt8`.
* A Go `interface{}` value is `Option V`: `none` is the `nil` interface, and
  `some v` a non-nil dynamic value `v : V`.
* `time.Time` is the number of nanoseconds elapsed since the zero instant
  (January 1, year 1, 00:00:00 UTC), an unbounded integer.  `time.Duration`
  is an `int64` count of nanoseconds.
* Every call of `time.Now()` in the source becomes an explicit argument `now`
  of the operation that makes the call.
* A Go `map[string]T` is a list of key/value pairs with pairwise distinct
  keys; the order of the list is the (unspecified) iteration order of `range`.
* The operations are modelled sequentially: the `sync.RWMutex` of `Storage`
  has no effect on the result of a call that runs alone, and is left out of
  the operations.  The use each method makes of the mutex is recorded apart,
  as the list of its steps.
-/

namespace Cache

/-! ## Strings and interface values -/

/-- Go strings are immutable byte sequences. -/
abbrev GoString := List UInt8

/-- Go `interface{}`: `none` is `nil`. -/
abbrev Interface (V : Type) := Option V

/-! ## Package `time` -/

/-- An instant: nanoseconds since January 1, year 1, 00:00:00 UTC. -/
structure Time where
  ns : Int
  deriving DecidableEq, Repr

/-- The smallest `int64`, the least `time.Duration`. -/
def minDuration : Int := -(2 ^ 63)

/-- The largest `int64`, the greatest `time.Duration`. -/
def maxDuration : Int := 2 ^ 63 - 1

/-- Go `time.Duration`: an `int64` nanosecond count. -/
structure Duration where
  ns : Int
  lo : minDuration ≤ ns
  hi : ns ≤ maxDuration

/-- The zero value `time.Time{}`. -/
def Time.zero : Time := ⟨0⟩

/-- Go `Time.IsZero`: the instant is January 1, year 1, 00:00:00 UTC. -/
def Time.IsZero (t : Time) : Bool := decide (t.ns = 0)

/-- Go `Time.After`: `t` is strictly after `u`. -/
def Time.After (t u : Time) : Bool := decide (u.ns < t.ns)

/-- Go `Time.Add`. -/
def Time.Add (t : Time) (d : Duration) : Time := ⟨t.ns + d.ns⟩

/-- Saturation of an integer into the range of `time.Duration`. -/
def saturate (x : Int) : Duration :=
  if h1 : x < minDuration then
    ⟨minDuration, le_refl _, by unfold minDuration maxDuration; omega⟩
  else if h2 : maxDuration < x then
    ⟨maxDuration, by unfold minDuration maxDuration; omega, le_refl _⟩
  else
    ⟨x, not_lt.mp h1, not_lt.mp h2⟩

/-- Go `Time.Sub`: the duration `t - u`, saturated at the least and the
greatest duration when the difference does not fit. -/
def Time.Sub (t u : Time) : Duration := saturate (t.ns - u.ns)

/-- Go `time.Until(t)`, which is `t.Sub(time.Now())`. -/
def Until (t now : Time) : Duration := t.Sub now

/-- The zero duration, the literal `0` of type `time.Duration`. -/
def Duration.zero : Duration :=
  ⟨0, by unfold minDuration; omega, by unfold maxDuration; omega⟩

/-! ## Go maps with string keys -/

/-- A `map[string]T`: key/value pairs with pairwise distinct keys. -/
structure GoMap (T : Type) where
  entries : List (GoString × T)
  uniq : (entries.map Prod.fst).Nodup

namespace GoMap

variable {T : Type}

/-- Go `make(map[string]T)`. -/
def empty : GoMap T := ⟨[], List.nodup_nil⟩

/-- Lookup in the list of pairs: the value of the first pair with key `k`. -/
def find (k : GoString) : List (GoString × T) → Option T
  | [] => none
  | (k', v) :: rest => if k' = k then some v else find k rest

/-- The comma-ok index expression `v, ok := m[k]`; `none` is `ok = false`. -/
def lookup (m : GoMap T) (k : GoString) : Option T := find k m.entries

/-- The keys in iteration order. -/
def keys (m : GoMap T) : List GoString := m.entries.map Prod.fst

/-- Number of entries, Go `len(m)`. -/
def len (m : GoMap T) : Nat := m.entries.length

theorem uniq_filter (l : List (GoString × T)) (p : GoString × T → Bool)
    (h : (l.map Prod.fst).Nodup) : ((l.filter p).map Prod.fst).Nodup :=
  (List.filter_sublist l).map Prod.fst |>.nodup h

/-- Go `delete(m, k)`: drops the pair with key `k`, if any. -/
def delete (m : GoMap T) (k : GoString) : GoMap T :=
  ⟨m.entries.filter (fun e => decide (e.1 ≠ k)), uniq_filter _ _ m.uniq⟩

/-- Replaces the value of the pair with key `k`, or appends a new pair. -/
def put (k : GoString) (v : T) : List (GoString × T) → List (GoString × T)
  | [] => [(k, v)]
  | (k', v') :: rest => if k' = k then (k, v) :: rest else (k', v') :: put k v rest

theorem put_keys (k : GoString) (v : T) (l : List (GoString × T)) :
    (put k v l).map Prod.fst =
      if k ∈ l.map Prod.fst then l.map Prod.fst else l.map Prod.fst ++ [k] := by
  induction l with
  | nil => simp [put]
  | cons e rest ih =>
    obtain ⟨k', v'⟩ := e
    by_cases h : k' = k
    · subst h; simp [put]
    · have h' : ¬ k = k' := fun e => h e.symm
      simp only [put, h, if_false, List.map_cons, ih, List.mem_cons, h', false_or]
      split <;> simp

theorem uniq_put (k : GoString) (v : T) (l : List (GoString × T))
    (h : (l.map Prod.fst).Nodup) : ((put k v l).map Prod.fst).Nodup := by
  rw [put_keys]
  split
  · exact h
  · rename_i hk
    exact List.Nodup.append h (List.nodup_singleton k)
      (by simpa [List.disjoint_singleton] using hk)

/-- Go `m[k] = v`: overwrites the entry of `k` or inserts one. -/
def store (m : GoMap T) (k : GoString) (v : T) : GoMap T :=
  ⟨put k v m.entries, uniq_put k v _ m.uniq⟩

end GoMap

/-! ## Package `regexp`

A compiled regular expression over bytes.  The constructors cover the
operators used with this package: literals, character classes, the anchors
`^` and `$` (without the multi-line flag), concatenation, alternation and the
repetitions `*` and `+`. -/

/-- Abstract syntax of a compiled regular expression. -/
inductive Regexp where
  | emp : Regexp
  | lit : UInt8 → Regexp
  | cls : List (UInt8 × UInt8) → Regexp
  | bol : Regexp
  | eol : Regexp
  | cat : Regexp → Regexp → Regexp
  | alt : Regexp → Regexp → Regexp
  | star : Regexp → Regexp
  | plus : Regexp → Regexp
  deriving DecidableEq, Repr

namespace Regexp

/-- Repetition: the positions reached from `i` by a chain of steps, each of
which moves forward; `n` bounds the length of the chain. -/
def iter (step : Nat → List Nat) : Nat → Nat → List Nat
  | 0, i => [i]
  | n + 1, i => i :: ((step i).filter (fun j => decide (i < j))).flatMap (iter step n)

/-- Whether byte `c` lies in one of the ranges of a character class. -/
def inClass (ranges : List (UInt8 × UInt8)) (c : UInt8) : Bool :=
  ranges.any (fun r => decide (r.1 ≤ c) && decide (c ≤ r.2))

/-- The end positions of the matches of `re` in `s` that begin at position `i`. -/
def ends (s : GoString) : Regexp → Nat → List Nat
  | emp, i => [i]
  | lit b, i => if s[i]? = some b then [i + 1] else []
  | cls ranges, i =>
    match s[i]? with
    | some c => if inClass ranges c then [i + 1] else []
    | none => []
  | bol, i => if i = 0 then [i] else []
  | eol, i => if i = s.length then [i] else []
  | cat a b, i => (ends s a i).flatMap (fun j => ends s b j)
  | alt a b, i => ends s a i ++ ends s b i
  | star a, i => iter (fun j => ends s a j) s.length i
  | plus a, i => (ends s a i).flatMap (fun j => iter (fun j => ends s a j) s.length j)

/-- Go `Regexp.MatchString`: whether `s` contains any match of `re`. -/
def MatchString (re : Regexp) (s : GoString) : Bool :=
  (List.range (s.length + 1)).any (fun i => !(ends s re i).isEmpty)

/-- Whole-string matching: `re` has a match that begins at the first byte of
`s` and ends after its last byte. -/
def fullMatch (re : Regexp) (s : GoString) : Bool :=
  (ends s re 0).contains s.length

/-- The relation "the bytes of `s` from position `i` up to position `j` are a
match of the regular expression": the meaning of the syntax, with which the
computation `ends` is compared below. -/
inductive Matches (s : GoString) : Regexp → Nat → Nat → Prop
  | emp (i : Nat) : Matches s emp i i
  | lit (b : UInt8) (i : Nat) : s[i]? = some b → Matches s (lit b) i (i + 1)
  | cls (ranges : List (UInt8 × UInt8)) (c : UInt8) (i : Nat) :
      s[i]? = some c → inClass ranges c = true → Matches s (cls ranges) i (i + 1)
  | bol : Matches s bol 0 0
  | eol : Matches s eol s.length s.length
  | cat (a b : Regexp) (i j k : Nat) :
      Matches s a i j → Matches s b j k → Matches s (cat a b) i k
  | altLeft (a b : Regexp) (i j : Nat) : Matches s a i j → Matches s (alt a b) i j
  | altRight (a b : Regexp) (i j : Nat) : Matches s b i j → Matches s (alt a b) i j
  | starNil (a : Regexp) (i : Nat) : Matches s (star a) i i
  | starCons (a : Regexp) (i j k : Nat) :
      Matches s a i j → Matches s (star a) j k → Matches s (star a) i k
  | plus (a : Regexp) (i j k : Nat) :
      Matches s a i j → Matches s (star a) j k → Matches s (plus a) i k

end Regexp

/-! ## `cache.go` -/

/-- Go `Item`: a cached reference. -/
structure Item (V : Type) where
  Content : Interface V
  Expiration : Time
  deriving DecidableEq, Repr

/-- Go `Item.Expired`, with the reading of `time.Now()` as `now`. -/
def Item.Expired {V : Type} (item : Item V) (now : Time) : Bool :=
  if item.Expiration.IsZero then
    false
  else
    now.After item.Expiration

/-- Go `Storage`: the `items` map (the mutex is left out). -/
structure Storage (V : Type) where
  items : GoMap (Item V)

namespace Storage

variable {V : Type}

/-- Go `NewStorage`. -/
def NewStorage : Storage V := ⟨GoMap.empty⟩

/-- Go `Storage.Get`: the result and the storage after the call. -/
def Get (s : Storage V) (key : GoString) (now : Time) : Interface V × Storage V :=
  match s.items.lookup key with
  | none => (none, s)
  | some item =>
    if item.Expired now then
      (none, ⟨s.items.delete key⟩)
    else
      (item.Content, s)

/-- Go `Storage.Set`, with the reading of `time.Now()` as `now`. -/
def Set (s : Storage V) (key : GoString) (content : Interface V) (duration : Duration)
    (now : Time) : Storage V :=
  ⟨s.items.store key
    { Content := content
      Expiration := if duration.ns = 0 then Time.zero else now.Add duration }⟩

/-- Go `Storage.Expiration`. -/
def Expiration (s : Storage V) (key : GoString) : Time × Storage V :=
  match s.items.lookup key with
  | none => (Time.zero, s)
  | some item => (item.Expiration, s)

/-- Go `Storage.TTL`, with the reading of `time.Now()` as `now`. -/
def TTL (s : Storage V) (key : GoString) (now : Time) : Duration × Storage V :=
  match s.items.lookup key with
  | none => (Duration.zero, s)
  | some item => (Until item.Expiration now, s)

/-- Go `Storage.Keys`, for a pattern that `regexp.MustCompile` accepts and
compiles to `re`: the loop appends the matching keys in iteration order. -/
def Keys (s : Storage V) (re : Regexp) : List GoString × Storage V :=
  (s.items.keys.foldl (fun keys k => if re.MatchString k then keys ++ [k] else keys) [], s)

/-- The test of the loop of `Flush`:
`len(k) >= len(prefix) && k[:len(prefix)] == prefix`. -/
def startsWith (k pfx : GoString) : Bool :=
  decide (k.length ≥ pfx.length) && decide (k.take pfx.length = pfx)

/-- Go `Storage.Flush`: the loop ranges over the keys and deletes each key
that passes the test from the map. -/
def Flush (s : Storage V) (pfx : GoString) : Storage V :=
  ⟨s.items.keys.foldl (fun m k => if startsWith k pfx then m.delete k else m) s.items⟩

/-- Go `Storage.Rem`: the result and the storage after the call. -/
def Rem (s : Storage V) (key : GoString) : Interface V × Storage V :=
  match s.items.lookup key with
  | some v => (v.Content, ⟨s.items.delete key⟩)
  | none => (none, s)

end Storage

/-! ## Sequences of calls -/

/-- A call of one of the methods of `Storage`, with the reading of the clock
where the method reads it. -/
inductive Call (V : Type) where
  | get (key : GoString) (now : Time)
  | expiration (key : GoString)
  | ttl (key : GoString) (now : Time)
  | keys (re : Regexp)
  | set (key : GoString) (content : Interface V) (duration : Duration) (now : Time)
  | flush (pfx : GoString)
  | rem (key : GoString)

namespace Call

variable {V : Type}

/-- The storage after a call. -/
def exec : Call V → Storage V → Storage V
  | get key now, s => (s.Get key now).2
  | expiration key, s => (s.Expiration key).2
  | ttl key now, s => (s.TTL key now).2
  | keys re, s => (s.Keys re).2
  | set key content duration now, s => s.Set key content duration now
  | flush pfx, s => s.Flush pfx
  | rem key, s => (s.Rem key).2

/-- Whether the call is a `Set` or `Rem` of `key`, or a `Flush` of a prefix
of `key`. -/
def affects (key : GoString) : Call V → Bool
  | set k _ _ _ => decide (k = key)
  | rem k => decide (k = key)
  | flush pfx => Storage.startsWith key pfx
  | _ => false

end Call

/-- The storage after a sequence of calls, made one after the other. -/
def run {V : Type} (s : Storage V) (calls : List (Call V)) : Storage V :=
  calls.foldl (fun st c => c.exec st) s

/-! ## The mutex

What each method does to the `sync.RWMutex` and to the `items` map, in program
order.  The deferred `RUnlock` or `Unlock` runs last. -/

/-- A step of a method: an operation of the mutex, or an access to `items`. -/
inductive Event where
  | RLock : Event
  | RUnlock : Event
  | Lock : Event
  | Unlock : Event
  | read (key : GoString) : Event
  | range : Event
  | assign (key : GoString) : Event
  | delete (key : GoString) : Event
  deriving DecidableEq, Repr

/-- How the calling goroutine holds the mutex. -/
inductive Mode where
  | unlocked : Mode
  | shared : Mode
  | exclusive : Mode
  deriving DecidableEq, Repr

/-- Whether the step inserts into or deletes from the map. -/
def Event.mutates : Event → Bool
  | Event.assign _ => true
  | Event.delete _ => true
  | _ => false

/-- The mode after a step. -/
def Mode.after (m : Mode) : Event → Mode
  | Event.RLock => Mode.shared
  | Event.RUnlock => Mode.unlocked
  | Event.Lock => Mode.exclusive
  | Event.Unlock => Mode.unlocked
  | _ => m

/-- Whether every mutation among the steps happens while the mutex is held in
exclusive mode, starting in mode `m`. -/
def exclusiveWrites : Mode → List Event → Bool
  | _, [] => true
  | m, e :: rest => (!e.mutates || decide (m = Mode.exclusive)) && exclusiveWrites (m.after e) rest

/-- The deletions among the steps, applied to a map in order. -/
def applyDeletes {T : Type} (m : GoMap T) (events : List Event) : GoMap T :=
  events.foldl (fun acc e => match e with
    | Event.delete k => acc.delete k
    | _ => acc) m

namespace Storage

variable {V : Type}

/-- The steps of `Storage.Get`: `RLock`, the lookup, the `delete` of an expired
entry, and the deferred `RUnlock`. -/
def GetEvents (s : Storage V) (key : GoString) (now : Time) : List Event :=
  [Event.RLock, Event.read key] ++
    (match s.items.lookup key with
     | none => []
     | some item => if item.Expired now then [Event.delete key] else []) ++
    [Event.RUnlock]

/-- The steps of `Storage.Expiration`. -/
def ExpirationEvents (key : GoString) : List Event :=
  [Event.RLock, Event.read key, Event.RUnlock]

/-- The steps of `Storage.TTL`. -/
def TTLEvents (key : GoString) : List Event :=
  [Event.RLock, Event.read key, Event.RUnlock]

/-- The steps of `Storage.Keys`. -/
def KeysEvents : List Event :=
  [Event.RLock, Event.range, Event.RUnlock]

/-- The steps of `Storage.Set`: `Lock`, the assignment, the deferred `Unlock`. -/
def SetEvents (key : GoString) : List Event :=
  [Event.Lock, Event.assign key, Event.Unlock]

/-- The steps of `Storage.Flush`: `Lock`, the loop with a `delete` for each
key that passes the test, the deferred `Unlock`. -/
def FlushEvents (s : Storage V) (pfx : GoString) : List Event :=
  [Event.Lock, Event.range] ++
    ((s.items.keys.filter (fun k => startsWith k pfx)).map Event.delete) ++
    [Event.Unlock]

/-- The steps of `Storage.Rem`: `Lock`, the lookup, the `delete` of a present
key, the deferred `Unlock`. -/
def RemEvents (s : Storage V) (key : GoString) : List Event :=
  [Event.Lock, Event.read key] ++
    (match s.items.lookup key with
     | some _ => [Event.delete key]
     | none => []) ++
    [Event.Unlock]

end Storage

/-! ## Concrete inputs used by the witnesses -/

/-- The key `"MY_KEY"` of the tests. -/
def myKey : GoString := [77, 89, 95, 75, 69, 89]

/-- The key `"NOTHING"` of the tests. -/
def nothingKey : GoString := [78, 79, 84, 72, 73, 78, 71]

/-- Go `parse("5s")`: five seconds. -/
def fiveSeconds : Duration := ⟨5000000000, by decide, by decide⟩

/-- An instant in the year 2024 (63 840 000 000 s after the zero instant). -/
def someInstant : Time := ⟨63840000000000000000⟩

/-- A storage holding one entry, made by `Set` on the empty storage. -/
def oneEntry : Storage Nat :=
  Storage.Set Storage.NewStorage myKey (some 123456) fiveSeconds someInstant

/-- The instant six seconds after `someInstant`. -/
def sixSecondsLater : Time := ⟨63840000006000000000⟩

/-- Calls on other keys and a `Get` of the key itself,
a century after `someInstant`. -/
def otherCalls : List (Call Nat) :=
  [Call.set nothingKey (some 7) fiveSeconds someInstant,
   Call.get myKey ⟨66995000000000000000⟩,
   Call.flush nothingKey,
   Call.rem nothingKey]

/-- The key `"bab"`. -/
def babKey : GoString := [98, 97, 98]

/-- A storage whose only key is `"bab"`. -/
def babStorage : Storage Nat :=
  Storage.Set Storage.NewStorage babKey (some 1) Duration.zero someInstant

/-- The three keys of the test `TestKeys`: `"aaabbbccc"`, `"aaa0123bbb"` and
`"0123aaabbb"`, each with the zero item. -/
def testKeysStorage : Storage Nat :=
  ((Storage.NewStorage.Set [97, 97, 97, 98, 98, 98, 99, 99, 99] none Duration.zero Time.zero).Set
    [97, 97, 97, 48, 49, 50, 51, 98, 98, 98] none Duration.zero Time.zero).Set
    [48, 49, 50, 51, 97, 97, 97, 98, 98, 98] none Duration.zero Time.zero

/-- The class `[0-9]`. -/
def digit : Regexp := Regexp.cls [(48, 57)]

/-- The class `[a-zA-Z]`. -/
def letter : Regexp := Regexp.cls [(97, 122), (65, 90)]

/-- The pattern `^r$`. -/
def anchored (r : Regexp) : Regexp := Regexp.cat Regexp.bol (Regexp.cat r Regexp.eol)

/-- A storage whose only entry, under `"MY_KEY"`, was set with duration zero. -/
def eternalEntry : Storage Nat :=
  Storage.Set Storage.NewStorage myKey (some 123456) Duration.zero someInstant

/-- A negative duration: minus five seconds. -/
def minusFiveSeconds : Duration := ⟨-5000000000, by decide, by decide⟩

/-- A storage whose only entry, under `"MY_KEY"`, holds the nil content and
was set with duration zero. -/
def nilEntry : Storage Nat :=
  Storage.Set Storage.NewStorage myKey none Duration.zero someInstant

/-! ## Lemmas on maps -/

namespace GoMap

variable {T : Type}

theorem ext_entries {m m' : GoMap T} (h : m.entries = m'.entries) : m = m' := by
  cases m; cases m'; cases h; rfl

theorem find_eq_none_iff (k : GoString) (l : List (GoString × T)) :
    find k l = none ↔ k ∉ l.map Prod.fst := by
  induction l with
  | nil => simp [find]
  | cons e rest ih =>
    obtain ⟨k', v'⟩ := e
    by_cases h : k' = k
    · subst h; simp [find]
    · have h' : ¬ k = k' := fun e => h e.symm
      simp [find, h, h', ih]

theorem lookup_eq_none_iff (m : GoMap T) (k : GoString) :
    m.lookup k = none ↔ k ∉ m.keys :=
  find_eq_none_iff k m.entries

theorem find_filter (k : GoString) (q : GoString → Bool) (l : List (GoString × T)) :
    find k (l.filter (fun e => q e.1)) = if q k then find k l else none := by
  induction l with
  | nil => simp [find]
  | cons e rest ih =>
    obtain ⟨k', v'⟩ := e
    by_cases h : k' = k
    · subst h
      by_cases hq : q k' = true
      · simp [List.filter_cons, hq, find]
      · rw [List.filter_cons]
        simp [hq, ih]
    · by_cases hq : q k' = true
      · simp [List.filter_cons, hq, find, h, ih]
      · simp [List.filter_cons, hq, find, h, ih]

theorem lookup_delete_self (m : GoMap T) (k : GoString) : (m.delete k).lookup k = none := by
  have := find_filter k (fun x => decide (x ≠ k)) m.entries
  simpa [lookup, delete] using this

theorem lookup_delete_ne (m : GoMap T) {k k' : GoString} (h : k' ≠ k) :
    (m.delete k).lookup k' = m.lookup k' := by
  have := find_filter k' (fun x => decide (x ≠ k)) m.entries
  simpa [lookup, delete, h] using this

theorem not_mem_keys_delete (m : GoMap T) (k : GoString) : k ∉ (m.delete k).keys :=
  (lookup_eq_none_iff _ _).mp (lookup_delete_self m k)

theorem delete_absent (m : GoMap T) {k : GoString} (h : k ∉ m.keys) : m.delete k = m := by
  apply ext_entries
  simp only [delete]
  rw [List.filter_eq_self]
  intro e he
  have : e.1 ≠ k := fun hk => h (hk ▸ List.mem_map_of_mem Prod.fst he)
  simpa using this

theorem find_put_self (k : GoString) (v : T) (l : List (GoString × T)) :
    find k (put k v l) = some v := by
  induction l with
  | nil => simp [put, find]
  | cons e rest ih =>
    obtain ⟨k', v'⟩ := e
    by_cases h : k' = k
    · simp [put, find, h]
    · simp [put, find, h, ih]

theorem find_put_ne (k : GoString) (v : T) {k' : GoString} (hne : k' ≠ k)
    (l : List (GoString × T)) : find k' (put k v l) = find k' l := by
  induction l with
  | nil => simp [put, find, hne.symm]
  | cons e rest ih =>
    obtain ⟨k'', v''⟩ := e
    by_cases h : k'' = k
    · subst h
      simp [put, find, hne.symm]
    · by_cases h2 : k'' = k'
      · subst h2
        simp [put, find, h]
      · simp [put, find, h, h2, ih]

theorem lookup_store_self (m : GoMap T) (k : GoString) (v : T) :
    (m.store k v).lookup k = some v :=
  find_put_self k v m.entries

theorem lookup_store_ne (m : GoMap T) (k : GoString) (v : T) {k' : GoString} (h : k' ≠ k) :
    (m.store k v).lookup k' = m.lookup k' :=
  find_put_ne k v h m.entries

end GoMap

/-! ## Lemmas on the operations -/

namespace Storage

variable {V : Type}

theorem Get_absent (s : Storage V) (key : GoString) (now : Time)
    (h : s.items.lookup key = none) : s.Get key now = (none, s) := by
  simp [Get, h]

theorem Get_live (s : Storage V) (key : GoString) (now : Time) (item : Item V)
    (h : s.items.lookup key = some item) (hx : item.Expired now = false) :
    s.Get key now = (item.Content, s) := by
  simp [Get, h, hx]

theorem Get_expired (s : Storage V) (key : GoString) (now : Time) (item : Item V)
    (h : s.items.lookup key = some item) (hx : item.Expired now = true) :
    s.Get key now = (none, ⟨s.items.delete key⟩) := by
  simp [Get, h, hx]

theorem lookup_Set_self (s : Storage V) (key : GoString) (content : Interface V)
    (d : Duration) (now : Time) :
    (s.Set key content d now).items.lookup key =
      some ⟨content, if d.ns = 0 then Time.zero else now.Add d⟩ :=
  GoMap.lookup_store_self _ _ _

end Storage

/-! ## Properties of `Get` after `Set` -/

/-- C1: after `Set(key, value, d)` at an instant `t0` after the zero instant,
with `d > 0`, a `Get(key)` at any instant `t1` with `t0 ≤ t1 ≤ t0 + d` returns
exactly `value` and leaves the mapping as it is. -/
theorem get_within_ttl_returns_value {V : Type} (s : Storage V) (key : GoString)
    (value : Interface V) (d : Duration) (t0 t1 : Time)
    (ht0 : 0 < t0.ns) (hd : 0 < d.ns) (_h01 : t0.ns ≤ t1.ns) (h1d : t1.ns ≤ t0.ns + d.ns) :
    (s.Set key value d t0).Get key t1 = (value, s.Set key value d t0) := by
  have hne : d.ns ≠ 0 := by omega
  refine Storage.Get_live _ key t1 ⟨value, t0.Add d⟩ ?_ ?_
  · rw [Storage.lookup_Set_self, if_neg hne]
  · have hz : ¬ (t0.ns + d.ns = 0) := by omega
    have ha : ¬ (t0.ns + d.ns < t1.ns) := by omega
    simp [Item.Expired, Time.IsZero, Time.After, Time.Add, hz, ha]

/-- Witness of C1: the entry of the test `TestGetValue`, read two seconds
after it was set for five seconds. -/
theorem get_within_ttl_returns_value_witness :
    (Storage.Set (Storage.NewStorage : Storage Nat) myKey (some 123456) fiveSeconds
        someInstant).Get myKey ⟨63840000002000000000⟩
      = (some 123456,
          Storage.Set Storage.NewStorage myKey (some 123456) fiveSeconds someInstant) :=
  get_within_ttl_returns_value Storage.NewStorage myKey (some 123456) fiveSeconds someInstant
    ⟨63840000002000000000⟩ (by decide) (by decide) (by decide) (by decide)

/-- C2: after `Set(key, value, d)` at an instant `t0` after the zero instant,
with `d > 0`, a `Get(key)` at any instant `t1 > t0 + d` returns nil and deletes
exactly the entry of `key`: the key is no longer in the mapping, every other key
has the entry it had, and any later `Get(key)` returns nil as well. -/
theorem get_after_ttl_purges {V : Type} (s : Storage V) (key : GoString)
    (value : Interface V) (d : Duration) (t0 t1 : Time)
    (ht0 : 0 < t0.ns) (hd : 0 < d.ns) (h1 : t0.ns + d.ns < t1.ns) :
    (s.Set key value d t0).Get key t1 = (none, ⟨(s.Set key value d t0).items.delete key⟩)
    ∧ key ∉ ((s.Set key value d t0).Get key t1).2.items.keys
    ∧ (∀ k, k ≠ key → ((s.Set key value d t0).Get key t1).2.items.lookup k
          = (s.Set key value d t0).items.lookup k)
    ∧ (∀ t2, ((s.Set key value d t0).Get key t1).2.Get key t2
          = (none, ((s.Set key value d t0).Get key t1).2)) := by
  have hne : d.ns ≠ 0 := by omega
  have hget : (s.Set key value d t0).Get key t1
      = (none, ⟨(s.Set key value d t0).items.delete key⟩) := by
    refine Storage.Get_expired _ key t1 ⟨value, t0.Add d⟩ ?_ ?_
    · rw [Storage.lookup_Set_self, if_neg hne]
    · have hz : ¬ (t0.ns + d.ns = 0) := by omega
      simp [Item.Expired, Time.IsZero, Time.After, Time.Add, hz, h1]
  rw [hget]
  refine ⟨rfl, GoMap.not_mem_keys_delete _ _, fun k hk => GoMap.lookup_delete_ne _ hk, ?_⟩
  intro t2
  exact Storage.Get_absent _ key t2 (GoMap.lookup_delete_self _ _)

/-- Witness of C2: the entry set for five seconds, read six seconds later. -/
theorem get_after_ttl_purges_witness :
    oneEntry.Get myKey sixSecondsLater = (none, ⟨oneEntry.items.delete myKey⟩)
    ∧ myKey ∉ (oneEntry.Get myKey sixSecondsLater).2.items.keys
    ∧ (∀ k, k ≠ myKey → (oneEntry.Get myKey sixSecondsLater).2.items.lookup k
          = oneEntry.items.lookup k)
    ∧ (∀ t2, (oneEntry.Get myKey sixSecondsLater).2.Get myKey t2
          = (none, (oneEntry.Get myKey sixSecondsLater).2)) :=
  get_after_ttl_purges Storage.NewStorage myKey (some 123456) fiveSeconds someInstant
    sixSecondsLater (by decide) (by decide) (by decide)

/-! ## Entries without expiration -/

namespace Storage

variable {V : Type}

theorem startsWith_iff (k pfx : GoString) : startsWith k pfx = true ↔ pfx <+: k := by
  unfold startsWith
  constructor
  · intro h
    simp only [Bool.and_eq_true, decide_eq_true_eq] at h
    exact List.prefix_iff_eq_take.mpr h.2.symm
  · intro h
    simp only [Bool.and_eq_true, decide_eq_true_eq]
    exact ⟨h.length_le, (List.prefix_iff_eq_take.mp h).symm⟩

theorem foldl_delete_entries (P : GoString → Bool) (ks : List GoString) (m : GoMap (Item V)) :
    (ks.foldl (fun m k => if P k then m.delete k else m) m).entries
      = m.entries.filter (fun e => !(decide (e.1 ∈ ks) && P e.1)) := by
  induction ks generalizing m with
  | nil => simp
  | cons k ks ih =>
    rw [List.foldl_cons, ih]
    by_cases hP : P k = true
    · simp only [hP, if_true, GoMap.delete, List.filter_filter]
      apply List.filter_congr
      intro e _
      by_cases hek : e.1 = k
      · simp [hek, hP]
      · simp [hek]
    · simp only [hP, if_false]
      apply List.filter_congr
      intro e _
      by_cases hek : e.1 = k
      · simp [hek, hP]
      · simp [hek]

theorem Flush_entries (s : Storage V) (pfx : GoString) :
    (s.Flush pfx).items.entries = s.items.entries.filter (fun e => !startsWith e.1 pfx) := by
  unfold Flush
  rw [foldl_delete_entries]
  apply List.filter_congr
  intro e he
  have : e.1 ∈ s.items.keys := List.mem_map_of_mem Prod.fst he
  simp [this]

theorem lookup_Flush (s : Storage V) (pfx k : GoString) :
    (s.Flush pfx).items.lookup k = if startsWith k pfx then none else s.items.lookup k := by
  have h := GoMap.find_filter k (fun x => !startsWith x pfx) s.items.entries
  unfold GoMap.lookup
  rw [Flush_entries, h]
  cases startsWith k pfx <;> simp

theorem Rem_present (s : Storage V) (key : GoString) (item : Item V)
    (h : s.items.lookup key = some item) :
    s.Rem key = (item.Content, ⟨s.items.delete key⟩) := by
  simp [Rem, h]

theorem Rem_absent (s : Storage V) (key : GoString) (h : s.items.lookup key = none) :
    s.Rem key = (none, s) := by
  simp [Rem, h]

end Storage

theorem exec_keeps_eternal {V : Type} (key : GoString) (value : Interface V) (c : Call V)
    (hc : c.affects key = false) (s : Storage V)
    (h : s.items.lookup key = some ⟨value, Time.zero⟩) :
    (c.exec s).items.lookup key = some ⟨value, Time.zero⟩ := by
  cases c with
  | get k now =>
    simp only [Call.exec]
    by_cases hk : k = key
    · subst hk
      rw [Storage.Get_live s k now _ h (by simp [Item.Expired, Time.IsZero, Time.zero])]
      exact h
    · unfold Storage.Get
      split
      · exact h
      · split
        · exact (GoMap.lookup_delete_ne _ (Ne.symm hk)).trans h
        · exact h
  | expiration k => simp only [Call.exec, Storage.Expiration]; split <;> exact h
  | ttl k now => simp only [Call.exec, Storage.TTL]; split <;> exact h
  | keys re => exact h
  | set k content duration now =>
    have hk : key ≠ k := by
      intro e
      simp [Call.affects, e] at hc
    exact (GoMap.lookup_store_ne _ _ _ hk).trans h
  | flush pfx =>
    simp only [Call.affects] at hc
    simp only [Call.exec, Storage.lookup_Flush, hc]
    simpa using h
  | rem k =>
    have hk : key ≠ k := by
      intro e
      simp [Call.affects, e] at hc
    simp only [Call.exec, Storage.Rem]
    split
    · exact (GoMap.lookup_delete_ne _ hk).trans h
    · exact h

theorem run_keeps_eternal {V : Type} (key : GoString) (value : Interface V)
    (calls : List (Call V)) (hc : ∀ c ∈ calls, c.affects key = false) (s : Storage V)
    (h : s.items.lookup key = some ⟨value, Time.zero⟩) :
    (run s calls).items.lookup key = some ⟨value, Time.zero⟩ := by
  induction calls generalizing s with
  | nil => exact h
  | cons c rest ih =>
    simp only [run, List.foldl_cons]
    exact ih (fun c' hc' => hc c' (List.mem_cons_of_mem _ hc')) _
      (exec_keeps_eternal key value c (hc c (List.mem_cons_self _ _)) s h)

/-- C3: after `Set(key, value, 0)` the entry never expires: whatever calls
follow that are not a `Set` or `Rem` of `key` or a `Flush` of a prefix of
`key`, a `Get(key)` at any instant `t1` returns `value`, leaves the mapping as
it is, and `key` is still in the mapping. -/
theorem zero_ttl_never_expires {V : Type} (s : Storage V) (key : GoString)
    (value : Interface V) (t0 : Time) (calls : List (Call V))
    (hcalls : ∀ c ∈ calls, c.affects key = false) (t1 : Time) :
    (run (s.Set key value Duration.zero t0) calls).Get key t1
        = (value, run (s.Set key value Duration.zero t0) calls)
    ∧ key ∈ ((run (s.Set key value Duration.zero t0) calls).Get key t1).2.items.keys := by
  have h0 : (s.Set key value Duration.zero t0).items.lookup key = some ⟨value, Time.zero⟩ := by
    rw [Storage.lookup_Set_self]
    simp [Duration.zero]
  have h := run_keeps_eternal key value calls hcalls _ h0
  have hget := Storage.Get_live _ key t1 _ h (by simp [Item.Expired, Time.IsZero, Time.zero])
  refine ⟨hget, ?_⟩
  rw [hget]
  by_contra hk
  rw [← GoMap.lookup_eq_none_iff, h] at hk
  exact Option.noConfusion hk

/-- Witness of C3: a zero-duration entry read a thousand years later, after
calls that do not affect it. -/
theorem zero_ttl_never_expires_witness :
    (run (Storage.Set (Storage.NewStorage : Storage Nat) myKey (some 1) Duration.zero
        someInstant) otherCalls).Get myKey ⟨95400000000000000000⟩
      = (some 1, run (Storage.Set Storage.NewStorage myKey (some 1) Duration.zero
          someInstant) otherCalls)
    ∧ myKey ∈ ((run (Storage.Set (Storage.NewStorage : Storage Nat) myKey (some 1)
        Duration.zero someInstant) otherCalls).Get myKey
          ⟨95400000000000000000⟩).2.items.keys :=
  zero_ttl_never_expires Storage.NewStorage myKey (some 1) someInstant otherCalls
    (by decide) ⟨95400000000000000000⟩

/-! ## `Flush` -/

/-- C5: after `Flush(prefix)` the mapping is the original one restricted to the
keys that do not start with `prefix`: a key that starts with `prefix` is absent,
any other key has the entry it had; `Flush("")` leaves the mapping empty, and
a prefix that no key starts with leaves the mapping as it is. -/
theorem flush_restricts_to_other_keys {V : Type} (s : Storage V) (pfx : GoString) :
    (∀ k, pfx <+: k → (s.Flush pfx).items.lookup k = none ∧ k ∉ (s.Flush pfx).items.keys)
    ∧ (∀ k, ¬ pfx <+: k → (s.Flush pfx).items.lookup k = s.items.lookup k)
    ∧ (s.Flush []).items.entries = [] ∧ (s.Flush []).items.len = 0
    ∧ ((∀ k ∈ s.items.keys, ¬ pfx <+: k) → s.Flush pfx = s) := by
  refine ⟨?_, ?_, ?_, ?_, ?_⟩
  · intro k hk
    have h : (s.Flush pfx).items.lookup k = none := by
      rw [Storage.lookup_Flush, (Storage.startsWith_iff k pfx).mpr hk]
      rfl
    exact ⟨h, (GoMap.lookup_eq_none_iff _ _).mp h⟩
  · intro k hk
    have hf : Storage.startsWith k pfx = false := by
      cases hb : Storage.startsWith k pfx
      · rfl
      · exact absurd ((Storage.startsWith_iff k pfx).mp hb) hk
    rw [Storage.lookup_Flush, hf]
    rfl
  · rw [Storage.Flush_entries]
    simp [Storage.startsWith]
  · simp [GoMap.len, Storage.Flush_entries, Storage.startsWith]
  · intro h
    have he : (s.Flush pfx).items.entries = s.items.entries := by
      rw [Storage.Flush_entries, List.filter_eq_self]
      intro e he
      have hk : ¬ pfx <+: e.1 := h e.1 (List.mem_map_of_mem Prod.fst he)
      cases hb : Storage.startsWith e.1 pfx
      · rfl
      · exact absurd ((Storage.startsWith_iff e.1 pfx).mp hb) hk
    have hm : (s.Flush pfx).items = s.items := GoMap.ext_entries he
    cases s
    exact congrArg Storage.mk hm

/-- Witness of C5: on the one-entry storage of `TestStorage_Flush`, the key
`"MY_KEY"` starts with the prefix `"MY"` and is flushed; the key `"NOTHING"`
does not; no key starts with `"NOTHING"`, so that flush changes nothing. -/
theorem flush_restricts_to_other_keys_witness :
    ((oneEntry.Flush [77, 89]).items.lookup myKey = none
      ∧ myKey ∉ (oneEntry.Flush [77, 89]).items.keys)
    ∧ (oneEntry.Flush [77, 89]).items.lookup nothingKey = oneEntry.items.lookup nothingKey
    ∧ oneEntry.Flush nothingKey = oneEntry :=
  ⟨(flush_restricts_to_other_keys oneEntry [77, 89]).1 myKey (by decide),
   (flush_restricts_to_other_keys oneEntry [77, 89]).2.1 nothingKey (by decide),
   (flush_restricts_to_other_keys oneEntry nothingKey).2.2.2.2 (by decide)⟩

/-! ## `Rem` -/

/-- C6: when `key` is in the mapping, holding `item`, `Rem(key)` returns the
content of `item` and leaves a mapping without `key` in which every other key
has the entry it had; a `Get(key)` made right afterwards returns nil. -/
theorem rem_present_returns_content {V : Type} (s : Storage V) (key : GoString)
    (item : Item V) (h : s.items.lookup key = some item) :
    s.Rem key = (item.Content, ⟨s.items.delete key⟩)
    ∧ key ∉ (s.Rem key).2.items.keys
    ∧ (s.Rem key).2.items.lookup key = none
    ∧ (∀ k, k ≠ key → (s.Rem key).2.items.lookup k = s.items.lookup k)
    ∧ (∀ now, (s.Rem key).2.Get key now = (none, (s.Rem key).2)) := by
  have hr := Storage.Rem_present s key item h
  rw [hr]
  exact ⟨rfl, GoMap.not_mem_keys_delete _ _, GoMap.lookup_delete_self _ _,
    fun k hk => GoMap.lookup_delete_ne _ hk,
    fun now => Storage.Get_absent _ key now (GoMap.lookup_delete_self _ _)⟩

/-- Witness of C6: `Rem("MY_KEY")` on the one-entry storage, as in
`TestStorage_Rem`. -/
theorem rem_present_returns_content_witness :
    oneEntry.Rem myKey = (some 123456, ⟨oneEntry.items.delete myKey⟩)
    ∧ myKey ∉ (oneEntry.Rem myKey).2.items.keys
    ∧ (oneEntry.Rem myKey).2.items.lookup myKey = none
    ∧ (∀ k, k ≠ myKey → (oneEntry.Rem myKey).2.items.lookup k = oneEntry.items.lookup k)
    ∧ (∀ now, (oneEntry.Rem myKey).2.Get myKey now = (none, (oneEntry.Rem myKey).2)) :=
  rem_present_returns_content oneEntry myKey ⟨some 123456, someInstant.Add fiveSeconds⟩
    (by decide)

/-- C7: when `key` is not in the mapping, `Rem(key)` returns nil and leaves the
mapping exactly as it was. -/
theorem rem_absent_returns_nil {V : Type} (s : Storage V) (key : GoString)
    (h : key ∉ s.items.keys) : s.Rem key = (none, s) :=
  Storage.Rem_absent s key ((GoMap.lookup_eq_none_iff _ _).mpr h)

/-- Witness of C7: `Rem("NOTHING")` on the one-entry storage, as in
`TestStorage_Rem`. -/
theorem rem_absent_returns_nil_witness : oneEntry.Rem nothingKey = (none, oneEntry) :=
  rem_absent_returns_nil oneEntry nothingKey (by decide)

/-! ## `Get` of a key that is not in the mapping -/

/-- C8: `Get(key)` on the storage made by `NewStorage` returns nil, and for
every storage and every key that is not in the mapping `Get(key)` returns nil
and leaves the mapping as it is. -/
theorem get_absent_returns_nil {V : Type} :
    (∀ (key : GoString) (now : Time),
        ((Storage.NewStorage : Storage V).Get key now).1 = none)
    ∧ (∀ (s : Storage V) (key : GoString) (now : Time), key ∉ s.items.keys →
        s.Get key now = (none, s)) :=
  ⟨fun _ _ => rfl,
   fun s key now h => Storage.Get_absent s key now ((GoMap.lookup_eq_none_iff _ _).mpr h)⟩

/-- Witness of C8: `Get("NOTHING")` on the one-entry storage. -/
theorem get_absent_returns_nil_witness :
    oneEntry.Get nothingKey someInstant = (none, oneEntry) :=
  (get_absent_returns_nil).2 oneEntry nothingKey someInstant (by decide)

/-! ## `TTL` and the frame of `Set` -/

theorem saturate_ns_of_mem (x : Int) (h1 : minDuration ≤ x) (h2 : x ≤ maxDuration) :
    (saturate x).ns = x := by
  unfold saturate
  rw [dif_neg (not_lt.mpr h1), dif_neg (not_lt.mpr h2)]

/-- C9: after `Set(key, value, d)` at `t0` with `d > 0`, `TTL(key)` at an
instant `t1` with `t0 ≤ t1 < t0 + d` returns the duration `t0 + d - t1`, which
is positive and at most `d`; and `TTL(key)` of a key that is not in the mapping
returns the zero duration. -/
theorem ttl_after_set_bounds {V : Type} (s : Storage V) (key : GoString)
    (value : Interface V) (d : Duration) (t0 t1 : Time) :
    (0 < d.ns → t0.ns ≤ t1.ns → t1.ns < t0.ns + d.ns →
        ((s.Set key value d t0).TTL key t1).1.ns = t0.ns + d.ns - t1.ns
        ∧ 0 < ((s.Set key value d t0).TTL key t1).1.ns
        ∧ ((s.Set key value d t0).TTL key t1).1.ns ≤ d.ns)
    ∧ (key ∉ s.items.keys → (s.TTL key t1).1 = Duration.zero ∧ (s.TTL key t1).1.ns = 0) := by
  constructor
  · intro hd h01 h1d
    have hne : d.ns ≠ 0 := by omega
    have hlo := d.lo
    have hhi := d.hi
    have hval : ((s.Set key value d t0).TTL key t1).1.ns = t0.ns + d.ns - t1.ns := by
      unfold Storage.TTL
      rw [Storage.lookup_Set_self, if_neg hne]
      simp only [Until, Time.Sub, Time.Add]
      apply saturate_ns_of_mem
      · unfold minDuration at *; omega
      · omega
    rw [hval]
    omega
  · intro h
    have hl := (GoMap.lookup_eq_none_iff _ _).mpr h
    have : s.TTL key t1 = (Duration.zero, s) := by simp [Storage.TTL, hl]
    rw [this]
    exact ⟨rfl, rfl⟩

/-- Witness of C9: the five-second entry two seconds after it was set, and the
absent key `"NOTHING"`. -/
theorem ttl_after_set_bounds_witness :
    ((oneEntry.TTL myKey ⟨63840000002000000000⟩).1.ns
        = someInstant.ns + fiveSeconds.ns - 63840000002000000000
      ∧ 0 < (oneEntry.TTL myKey ⟨63840000002000000000⟩).1.ns
      ∧ (oneEntry.TTL myKey ⟨63840000002000000000⟩).1.ns ≤ fiveSeconds.ns)
    ∧ ((oneEntry.TTL nothingKey ⟨63840000002000000000⟩).1 = Duration.zero
      ∧ (oneEntry.TTL nothingKey ⟨63840000002000000000⟩).1.ns = 0) :=
  ⟨(ttl_after_set_bounds Storage.NewStorage myKey (some 123456) fiveSeconds someInstant
      ⟨63840000002000000000⟩).1 (by decide) (by decide) (by decide),
   (ttl_after_set_bounds oneEntry nothingKey none Duration.zero someInstant
      ⟨63840000002000000000⟩).2 (by decide)⟩

/-- C10: `Set(key, value, d)` at `t0` yields a mapping in which `key` holds the
item with content `value` and expiration the zero instant if `d = 0` and
`t0 + d` otherwise, whatever the mapping held for `key` before, and in which
every other key has the entry it had. -/
theorem set_overwrites_and_frames {V : Type} (s : Storage V) (key : GoString)
    (value : Interface V) (d : Duration) (t0 : Time) :
    (s.Set key value d t0).items.lookup key
        = some ⟨value, if d.ns = 0 then Time.zero else ⟨t0.ns + d.ns⟩⟩
    ∧ (∀ k, k ≠ key → (s.Set key value d t0).items.lookup k = s.items.lookup k) :=
  ⟨Storage.lookup_Set_self s key value d t0,
   fun _ hk => GoMap.lookup_store_ne _ _ _ hk⟩

/-! ## The matcher computes the meaning of the regular expression -/

namespace Regexp

theorem lt_length_of_get? {s : GoString} {i : Nat} {b : UInt8} (h : s[i]? = some b) :
    i < s.length := by
  by_contra hn
  rw [List.getElem?_eq_none (not_lt.mp hn)] at h
  exact Option.noConfusion h

theorem Matches.le {s : GoString} {re : Regexp} {i j : Nat} (h : Matches s re i j) :
    i ≤ j := by
  induction h <;> omega

theorem Matches.bound {s : GoString} {re : Regexp} {i j : Nat} (h : Matches s re i j) :
    i < j → j ≤ s.length := by
  induction h with
  | emp i => omega
  | lit b i hb => intro _; exact lt_length_of_get? hb
  | cls ranges c i hc _ => intro _; exact lt_length_of_get? hc
  | bol => omega
  | eol => omega
  | cat a b i j k h1 h2 ih1 ih2 =>
    intro hik
    have := h1.le
    have := h2.le
    by_cases hjk : j < k
    · exact ih2 hjk
    · have : j = k := by omega
      subst this
      exact ih1 hik
  | altLeft a b i j _ ih => exact ih
  | altRight a b i j _ ih => exact ih
  | starNil a i => omega
  | starCons a i j k h1 h2 ih1 ih2 =>
    intro hik
    have := h1.le
    have := h2.le
    by_cases hjk : j < k
    · exact ih2 hjk
    · have : j = k := by omega
      subst this
      exact ih1 hik
  | plus a i j k h1 h2 ih1 ih2 =>
    intro hik
    have := h1.le
    have := h2.le
    by_cases hjk : j < k
    · exact ih2 hjk
    · have : j = k := by omega
      subst this
      exact ih1 hik

theorem self_mem_iter (step : Nat → List Nat) (n i : Nat) : i ∈ iter step n i := by
  cases n <;> simp [iter]

theorem iter_sound (step : Nat → List Nat) (P : Nat → Nat → Prop) (hrefl : ∀ i, P i i)
    (hstep : ∀ i j k, j ∈ step i → P j k → P i k) :
    ∀ n i k, k ∈ iter step n i → P i k := by
  intro n
  induction n with
  | zero =>
    intro i k h
    simp only [iter, List.mem_singleton] at h
    subst h
    exact hrefl _
  | succ n ih =>
    intro i k h
    simp only [iter, List.mem_cons, List.mem_flatMap, List.mem_filter] at h
    rcases h with h | ⟨j, ⟨hj, _⟩, hk⟩
    · subst h
      exact hrefl _
    · exact hstep i j k hj (ih j k hk)

theorem star_complete (s : GoString) (a : Regexp)
    (ih : ∀ i j, Matches s a i j → j ∈ ends s a i) (i k : Nat)
    (h : Matches s (star a) i k) :
    ∀ n, s.length - i ≤ n → k ∈ iter (fun j => ends s a j) n i := by
  generalize hre : star a = re at h
  induction h with
  | emp i => cases hre
  | lit b i hb => cases hre
  | cls ranges c i hc _ => cases hre
  | bol => cases hre
  | eol => cases hre
  | cat a b i j k h1 h2 ih1 ih2 => cases hre
  | altLeft a b i j _ ih => cases hre
  | altRight a b i j _ ih => cases hre
  | plus a i j k h1 h2 ih1 ih2 => cases hre
  | starNil a' i => intro n _; exact self_mem_iter _ n i
  | starCons a' i j k h1 h2 _ ih2 =>
    cases hre
    intro n hn
    have hij := h1.le
    by_cases hlt : i < j
    · have hj := h1.bound hlt
      obtain ⟨m, rfl⟩ : ∃ m, n = m + 1 := ⟨n - 1, by omega⟩
      simp only [iter, List.mem_cons, List.mem_flatMap, List.mem_filter]
      right
      exact ⟨j, ⟨ih i j h1, by simpa using hlt⟩, ih2 rfl m (by omega)⟩
    · have : j = i := by omega
      subst this
      exact ih2 rfl n hn

theorem mem_ends_iff (s : GoString) (re : Regexp) :
    ∀ i j, j ∈ ends s re i ↔ Matches s re i j := by
  induction re with
  | emp =>
    intro i j
    constructor
    · intro h
      simp only [ends, List.mem_singleton] at h
      subst h
      exact Matches.emp _
    · intro h
      cases h
      simp [ends]
  | lit b =>
    intro i j
    constructor
    · intro h
      simp only [ends] at h
      split at h
      · rename_i hb
        simp only [List.mem_singleton] at h
        subst h
        exact Matches.lit b i hb
      · simp at h
    · intro h
      cases h with
      | lit _ _ hb => simp [ends, hb]
  | cls ranges =>
    intro i j
    constructor
    · intro h
      simp only [ends] at h
      split at h
      · rename_i c hc
        split at h
        · rename_i hin
          simp only [List.mem_singleton] at h
          subst h
          exact Matches.cls ranges c i hc hin
        · simp at h
      · simp at h
    · intro h
      cases h with
      | cls _ c _ hc hin => simp [ends, hc, hin]
  | bol =>
    intro i j
    constructor
    · intro h
      simp only [ends] at h
      split at h
      · rename_i hi
        simp only [List.mem_singleton] at h
        subst h
        subst hi
        exact Matches.bol
      · simp at h
    · intro h
      cases h
      simp [ends]
  | eol =>
    intro i j
    constructor
    · intro h
      simp only [ends] at h
      split at h
      · rename_i hi
        simp only [List.mem_singleton] at h
        subst h
        subst hi
        exact Matches.eol
      · simp at h
    · intro h
      cases h
      simp [ends]
  | cat a b iha ihb =>
    intro i k
    constructor
    · intro h
      simp only [ends, List.mem_flatMap] at h
      obtain ⟨j, hj, hk⟩ := h
      exact Matches.cat a b i j k ((iha i j).mp hj) ((ihb j k).mp hk)
    · intro h
      cases h with
      | cat _ _ _ j _ h1 h2 =>
        simp only [ends, List.mem_flatMap]
        exact ⟨j, (iha i j).mpr h1, (ihb j k).mpr h2⟩
  | alt a b iha ihb =>
    intro i j
    constructor
    · intro h
      simp only [ends, List.mem_append] at h
      rcases h with h | h
      · exact Matches.altLeft a b i j ((iha i j).mp h)
      · exact Matches.altRight a b i j ((ihb i j).mp h)
    · intro h
      simp only [ends, List.mem_append]
      cases h with
      | altLeft _ _ _ _ h => exact Or.inl ((iha i j).mpr h)
      | altRight _ _ _ _ h => exact Or.inr ((ihb i j).mpr h)
  | star a iha =>
    intro i k
    constructor
    · intro h
      simp only [ends] at h
      exact iter_sound (fun j => ends s a j) (fun i k => Matches s (star a) i k)
        (fun i => Matches.starNil a i)
        (fun i j k hj hk => Matches.starCons a i j k ((iha i j).mp hj) hk) _ i k h
    · intro h
      simp only [ends]
      exact star_complete s a (fun i j hm => (iha i j).mpr hm) i k h _ (Nat.sub_le _ _)
  | plus a iha =>
    intro i k
    have hstar : ∀ j, k ∈ iter (fun j => ends s a j) s.length j ↔ Matches s (star a) j k := by
      intro j
      constructor
      · intro h
        exact iter_sound (fun j => ends s a j) (fun i k => Matches s (star a) i k)
          (fun i => Matches.starNil a i)
          (fun i j k hj hk => Matches.starCons a i j k ((iha i j).mp hj) hk) _ j k h
      · intro h
        exact star_complete s a (fun i j hm => (iha i j).mpr hm) j k h _ (Nat.sub_le _ _)
    constructor
    · intro h
      simp only [ends, List.mem_flatMap] at h
      obtain ⟨j, hj, hk⟩ := h
      exact Matches.plus a i j k ((iha i j).mp hj) ((hstar j).mp hk)
    · intro h
      cases h with
      | plus _ _ j _ h1 h2 =>
        simp only [ends, List.mem_flatMap]
        exact ⟨j, (iha i j).mpr h1, (hstar j).mpr h2⟩

theorem MatchString_iff (re : Regexp) (s : GoString) :
    MatchString re s = true ↔ ∃ i j, i ≤ s.length ∧ Matches s re i j := by
  unfold MatchString
  rw [List.any_eq_true]
  constructor
  · rintro ⟨i, hi, hne⟩
    rw [List.mem_range] at hi
    cases he : ends s re i with
    | nil => simp [he] at hne
    | cons j rest =>
      exact ⟨i, j, by omega, (mem_ends_iff s re i j).mp (by rw [he]; exact List.mem_cons_self _ _)⟩
  · rintro ⟨i, j, hi, hm⟩
    refine ⟨i, List.mem_range.mpr (by omega), ?_⟩
    have hj := (mem_ends_iff s re i j).mpr hm
    cases he : ends s re i with
    | nil => rw [he] at hj; simp at hj
    | cons j' rest => simp

theorem fullMatch_iff (re : Regexp) (s : GoString) :
    fullMatch re s = true ↔ Matches s re 0 s.length := by
  unfold fullMatch
  rw [List.contains_iff_exists_mem_beq]
  simp [mem_ends_iff]

theorem MatchString_anchored (r : Regexp) (s : GoString) :
    MatchString (cat bol (cat r eol)) s = true ↔ Matches s r 0 s.length := by
  rw [MatchString_iff]
  constructor
  · rintro ⟨i, j, _, hm⟩
    cases hm with
    | cat _ _ _ j1 _ h1 h2 =>
      cases h1
      cases h2 with
      | cat _ _ _ j2 _ h3 h4 =>
        cases h4
        exact h3
  · intro h
    exact ⟨0, s.length, Nat.zero_le _,
      Matches.cat _ _ _ _ _ Matches.bol (Matches.cat _ _ _ _ _ h Matches.eol)⟩

end Regexp

/-! ## `Keys` -/

namespace Storage

variable {V : Type}

theorem foldl_append_filter (P : GoString → Bool) (ks acc : List GoString) :
    ks.foldl (fun keys k => if P k then keys ++ [k] else keys) acc = acc ++ ks.filter P := by
  induction ks generalizing acc with
  | nil => simp
  | cons k ks ih =>
    rw [List.foldl_cons, ih]
    by_cases hP : P k = true
    · simp [hP, List.filter_cons]
    · simp [hP, List.filter_cons]

theorem Keys_eq_filter (s : Storage V) (re : Regexp) :
    (s.Keys re).1 = s.items.keys.filter (fun k => re.MatchString k) := by
  simp [Keys, foldl_append_filter]

end Storage

/-- The four assertions of `TestKeys` hold of the model: the patterns
`^[0-9]+$`, `^[a-zA-Z]+$`, `^[a-zA-Z]+[0-9]+[a-zA-Z]+$` and `^[0-9]+[a-zA-Z]+$`
select no key, `"aaabbbccc"`, `"aaa0123bbb"` and `"0123aaabbb"`. -/
theorem TestKeys_holds :
    (testKeysStorage.Keys (anchored (Regexp.plus digit))).1 = []
    ∧ (testKeysStorage.Keys (anchored (Regexp.plus letter))).1
        = [[97, 97, 97, 98, 98, 98, 99, 99, 99]]
    ∧ (testKeysStorage.Keys (anchored (Regexp.cat (Regexp.plus letter)
        (Regexp.cat (Regexp.plus digit) (Regexp.plus letter))))).1
        = [[97, 97, 97, 48, 49, 50, 51, 98, 98, 98]]
    ∧ (testKeysStorage.Keys (anchored (Regexp.cat (Regexp.plus digit)
        (Regexp.plus letter)))).1
        = [[48, 49, 50, 51, 97, 97, 97, 98, 98, 98]] := by
  decide

/-- C4, as stated, fails: on a storage whose only key is `"bab"`, `Keys("a")`
returns `"bab"`, although the whole string `"bab"` is not a match of `a`: it
only contains one. -/
theorem keys_returns_substring_match :
    (babStorage.Keys (Regexp.lit 97)).1 = [babKey]
    ∧ Regexp.fullMatch (Regexp.lit 97) babKey = false
    ∧ ¬ Regexp.Matches babKey (Regexp.lit 97) 0 babKey.length := by
  refine ⟨by decide, by decide, ?_⟩
  intro h
  have hf := (Regexp.fullMatch_iff (Regexp.lit 97) babKey).mpr h
  revert hf
  decide

/-- C4, amended: `Keys(pattern)` returns, each once and with nothing else, the
keys of the mapping that contain a match of the pattern, at any place of the
key; for a pattern `^r$` these are the keys whose whole string is a match of
`r`. -/
theorem keys_returns_keys_containing_match {V : Type} (s : Storage V) (re : Regexp) :
    (s.Keys re).1.Nodup
    ∧ (∀ k, k ∈ (s.Keys re).1 ↔
        k ∈ s.items.keys ∧ ∃ i j, i ≤ j ∧ j ≤ k.length ∧ Regexp.Matches k re i j)
    ∧ (∀ r k, k ∈ (s.Keys (Regexp.cat Regexp.bol (Regexp.cat r Regexp.eol))).1 ↔
        k ∈ s.items.keys ∧ Regexp.Matches k r 0 k.length) := by
  refine ⟨?_, ?_, ?_⟩
  · rw [Storage.Keys_eq_filter]
    exact s.items.uniq.filter _
  · intro k
    rw [Storage.Keys_eq_filter, List.mem_filter, Regexp.MatchString_iff]
    constructor
    · rintro ⟨hk, i, j, hi, hm⟩
      refine ⟨hk, i, j, hm.le, ?_, hm⟩
      by_cases hij : i < j
      · exact hm.bound hij
      · have := hm.le
        omega
    · rintro ⟨hk, i, j, hij, hj, hm⟩
      exact ⟨hk, i, j, by omega, hm⟩
  · intro r k
    rw [Storage.Keys_eq_filter, List.mem_filter, Regexp.MatchString_anchored]

/-- Witness of C10: `Set("MY_KEY", ...)` on the one-entry storage overwrites the
entry of `"MY_KEY"`, and the key `"NOTHING"` stays absent. -/
theorem set_overwrites_and_frames_witness :
    (oneEntry.Set myKey none Duration.zero someInstant).items.lookup myKey
        = some ⟨none, if Duration.zero.ns = 0 then Time.zero
            else ⟨someInstant.ns + Duration.zero.ns⟩⟩
    ∧ (oneEntry.Set myKey none Duration.zero someInstant).items.lookup nothingKey
        = oneEntry.items.lookup nothingKey :=
  ⟨(set_overwrites_and_frames oneEntry myKey none Duration.zero someInstant).1,
   (set_overwrites_and_frames oneEntry myKey none Duration.zero someInstant).2
     nothingKey (by decide)⟩

/-! ## `Expiration` and `Keys` do not act on expiration -/

/-- C11: `Expiration(key)` returns the expiration instant stored for `key` when
`key` is in the mapping, also when the entry is expired at the instant of the
call, and the zero instant when `key` is not in the mapping; in every case the
mapping is left as it is, so an expired entry is still there. -/
theorem expiration_returns_stored {V : Type} (s : Storage V) (key : GoString) (now : Time) :
    (∀ item, s.items.lookup key = some item → s.Expiration key = (item.Expiration, s))
    ∧ (∀ item, s.items.lookup key = some item → item.Expired now = true →
        (s.Expiration key).1 = item.Expiration ∧ key ∈ (s.Expiration key).2.items.keys)
    ∧ (key ∉ s.items.keys → s.Expiration key = (Time.zero, s))
    ∧ (s.Expiration key).2 = s := by
  have hfst : ∀ item, s.items.lookup key = some item →
      s.Expiration key = (item.Expiration, s) := by
    intro item h
    simp [Storage.Expiration, h]
  refine ⟨hfst, ?_, ?_, ?_⟩
  · intro item h _
    rw [hfst item h]
    refine ⟨rfl, ?_⟩
    by_contra hk
    rw [← GoMap.lookup_eq_none_iff, h] at hk
    exact Option.noConfusion hk
  · intro h
    have hl := (GoMap.lookup_eq_none_iff _ _).mpr h
    simp [Storage.Expiration, hl]
  · unfold Storage.Expiration
    split <;> rfl

/-- Witness of C11: the five-second entry, six seconds after it was set, and
the absent key `"NOTHING"`. -/
theorem expiration_returns_stored_witness :
    oneEntry.Expiration myKey = (someInstant.Add fiveSeconds, oneEntry)
    ∧ ((oneEntry.Expiration myKey).1 = someInstant.Add fiveSeconds
      ∧ myKey ∈ (oneEntry.Expiration myKey).2.items.keys)
    ∧ oneEntry.Expiration nothingKey = (Time.zero, oneEntry) :=
  ⟨(expiration_returns_stored oneEntry myKey sixSecondsLater).1
      ⟨some 123456, someInstant.Add fiveSeconds⟩ (by decide),
   (expiration_returns_stored oneEntry myKey sixSecondsLater).2.1
      ⟨some 123456, someInstant.Add fiveSeconds⟩ (by decide) (by decide),
   (expiration_returns_stored oneEntry nothingKey sixSecondsLater).2.2.1 (by decide)⟩

/-- C12: `Keys` does not apply expiration: a key whose entry is expired at the
instant of the call and which contains a match of the pattern (as it does when
its whole string is a match) is in the result of `Keys(pattern)`, and `Keys`
leaves the mapping as it is. -/
theorem keys_includes_expired {V : Type} (s : Storage V) (now : Time) (re : Regexp)
    (k : GoString) (item : Item V) (hk : s.items.lookup k = some item)
    (_hx : item.Expired now = true) :
    ((∃ i j, i ≤ k.length ∧ Regexp.Matches k re i j) → k ∈ (s.Keys re).1)
    ∧ (Regexp.Matches k re 0 k.length → k ∈ (s.Keys re).1)
    ∧ (s.Keys re).2 = s
    ∧ (s.Keys re).2.items.lookup k = some item := by
  have hmem : k ∈ s.items.keys := by
    by_contra hn
    rw [← GoMap.lookup_eq_none_iff, hk] at hn
    exact Option.noConfusion hn
  have hin : (∃ i j, i ≤ k.length ∧ Regexp.Matches k re i j) → k ∈ (s.Keys re).1 := by
    intro hm
    rw [Storage.Keys_eq_filter, List.mem_filter]
    exact ⟨hmem, (Regexp.MatchString_iff re k).mpr hm⟩
  exact ⟨hin, fun hm => hin ⟨0, k.length, Nat.zero_le _, hm⟩, rfl, hk⟩

/-- Witness of C12: six seconds after the five-second entry was set, `Keys("M")`
still returns `"MY_KEY"`. -/
theorem keys_includes_expired_witness :
    myKey ∈ (oneEntry.Keys (Regexp.lit 77)).1 :=
  (keys_includes_expired oneEntry sixSecondsLater (Regexp.lit 77) myKey
    ⟨some 123456, someInstant.Add fiveSeconds⟩ (by decide) (by decide)).1
    ⟨0, 1, by decide, Regexp.Matches.lit 77 0 (by decide)⟩

/-! ## `Item.Expired` -/

/-- C15: `Item.Expired` is false when the expiration is the zero instant, and
otherwise is true exactly when `now` is strictly after the expiration; an item
whose expiration is `now` itself is not expired. -/
theorem expired_iff_strictly_after {V : Type} (item : Item V) (now : Time) :
    (item.Expiration = Time.zero → item.Expired now = false)
    ∧ (item.Expiration ≠ Time.zero →
        (item.Expired now = true ↔ item.Expiration.ns < now.ns))
    ∧ (item.Expiration = now → item.Expired now = false) := by
  refine ⟨?_, ?_, ?_⟩
  · intro h
    simp [Item.Expired, h, Time.IsZero, Time.zero]
  · intro h
    have hz : item.Expiration.ns ≠ 0 := by
      intro h0
      apply h
      cases hE : item.Expiration with
      | mk n =>
        rw [hE] at h0
        simp only at h0
        rw [h0]
        rfl
    simp [Item.Expired, Time.IsZero, Time.After, hz]
  · intro h
    simp [Item.Expired, h, Time.After]

/-- Witness of C15: an item without expiration, an item read one nanosecond
after its expiration, and an item read at its expiration. -/
theorem expired_iff_strictly_after_witness :
    (⟨some 1, Time.zero⟩ : Item Nat).Expired someInstant = false
    ∧ ((⟨some 1, ⟨10⟩⟩ : Item Nat).Expired ⟨11⟩ = true ↔ (10 : Int) < 11)
    ∧ (⟨some 1, someInstant⟩ : Item Nat).Expired someInstant = false :=
  ⟨(expired_iff_strictly_after ⟨some 1, Time.zero⟩ someInstant).1 rfl,
   (expired_iff_strictly_after ⟨some 1, ⟨10⟩⟩ ⟨11⟩).2.1 (by decide),
   (expired_iff_strictly_after ⟨some 1, someInstant⟩ someInstant).2.2 rfl⟩

/-! ## The mutex and the mutations of the map -/

theorem exclusiveWrites_deletes (ks : List GoString) :
    exclusiveWrites Mode.exclusive (ks.map Event.delete ++ [Event.Unlock]) = true := by
  induction ks with
  | nil => simp [exclusiveWrites, Event.mutates]
  | cons k ks ih => simpa [exclusiveWrites, Event.mutates, Mode.after] using ih

namespace Storage

variable {V : Type}

theorem Set_writes_exclusive (key : GoString) :
    exclusiveWrites Mode.unlocked (SetEvents key) = true := by
  simp [SetEvents, exclusiveWrites, Event.mutates, Mode.after]

theorem Flush_writes_exclusive (s : Storage V) (pfx : GoString) :
    exclusiveWrites Mode.unlocked (s.FlushEvents pfx) = true := by
  have h := exclusiveWrites_deletes (s.items.keys.filter (fun k => startsWith k pfx))
  simpa [FlushEvents, exclusiveWrites, Event.mutates, Mode.after] using h

theorem Rem_writes_exclusive (s : Storage V) (key : GoString) :
    exclusiveWrites Mode.unlocked (s.RemEvents key) = true := by
  unfold RemEvents
  cases s.items.lookup key <;> simp [exclusiveWrites, Event.mutates, Mode.after]

theorem Get_writes_shared (s : Storage V) (key : GoString) (now : Time) (item : Item V)
    (h : s.items.lookup key = some item) (hx : item.Expired now = true) :
    exclusiveWrites Mode.unlocked (s.GetEvents key now) = false := by
  simp [GetEvents, h, hx, exclusiveWrites, Event.mutates, Mode.after]

theorem Get_items_eq_applyDeletes (s : Storage V) (key : GoString) (now : Time) :
    (s.Get key now).2.items = applyDeletes s.items (s.GetEvents key now) := by
  unfold Get GetEvents applyDeletes
  cases s.items.lookup key with
  | none => simp
  | some item =>
    cases hx : item.Expired now <;> simp [hx]

end Storage

/-- C13 fails on `Get`: on the storage holding `"MY_KEY"` for five seconds,
`Get("MY_KEY")` six seconds later takes `RLock`, deletes the entry and then
runs `RUnlock`: the deletion, which is the change `Get` makes to the map,
happens while the mutex is held in shared mode only.  `Set`, `Flush` and `Rem`
on the same storage mutate between `Lock` and `Unlock`. -/
theorem get_deletes_under_read_lock :
    oneEntry.GetEvents myKey sixSecondsLater
        = [Event.RLock, Event.read myKey, Event.delete myKey, Event.RUnlock]
    ∧ exclusiveWrites Mode.unlocked (oneEntry.GetEvents myKey sixSecondsLater) = false
    ∧ (oneEntry.Get myKey sixSecondsLater).2.items
        = applyDeletes oneEntry.items (oneEntry.GetEvents myKey sixSecondsLater)
    ∧ myKey ∈ oneEntry.items.keys
    ∧ myKey ∉ (oneEntry.Get myKey sixSecondsLater).2.items.keys
    ∧ exclusiveWrites Mode.unlocked (Storage.SetEvents myKey) = true
    ∧ exclusiveWrites Mode.unlocked (oneEntry.FlushEvents []) = true
    ∧ exclusiveWrites Mode.unlocked (oneEntry.RemEvents myKey) = true :=
  ⟨by decide, by decide, Storage.Get_items_eq_applyDeletes oneEntry myKey sixSecondsLater,
   by decide, by decide, by decide, by decide, by decide⟩

/-! ## `TTL` of entries that are present -/

theorem saturate_ns_of_lt (x : Int) (h : x < minDuration) : (saturate x).ns = minDuration := by
  unfold saturate
  rw [dif_pos h]

theorem saturate_ns_of_gt (x : Int) (h : maxDuration < x) : (saturate x).ns = maxDuration := by
  have h1 : ¬ x < minDuration := by
    unfold minDuration maxDuration at *
    omega
  unfold saturate
  rw [dif_neg h1, dif_pos h]

theorem saturate_ns_neg (x : Int) (h : x < 0) : (saturate x).ns < 0 := by
  by_cases h1 : x < minDuration
  · rw [saturate_ns_of_lt x h1]
    decide
  · rw [saturate_ns_of_mem x (not_lt.mp h1) (by unfold maxDuration; omega)]
    exact h

/-- C16, as stated, fails: for the entry set with duration zero, whose stored
expiration is the zero instant, `TTL` at an instant of the year 2024 returns
the least duration, `-2^63` nanoseconds, and not the stored expiration minus
now, which does not fit in a duration. -/
theorem ttl_of_present_key_saturates :
    eternalEntry.items.lookup myKey = some ⟨some 123456, Time.zero⟩
    ∧ (eternalEntry.TTL myKey someInstant).1.ns = -9223372036854775808
    ∧ Time.zero.ns - someInstant.ns = -63840000000000000000
    ∧ (eternalEntry.TTL myKey someInstant).1.ns ≠ Time.zero.ns - someInstant.ns := by
  decide

/-- C16, amended: for a key in the mapping, `TTL(key)` returns the stored
expiration minus now, saturated to the range of a duration: that difference
itself when it fits in an `int64` count of nanoseconds, the least duration
when it is below and the greatest when it is above.  The result is negative
when the entry is expired, and `TTL` leaves the mapping as it is. -/
theorem ttl_returns_saturated_difference {V : Type} (s : Storage V) (now : Time)
    (key : GoString) (item : Item V) (h : s.items.lookup key = some item) :
    (minDuration ≤ item.Expiration.ns - now.ns → item.Expiration.ns - now.ns ≤ maxDuration →
        (s.TTL key now).1.ns = item.Expiration.ns - now.ns)
    ∧ (item.Expiration.ns - now.ns < minDuration → (s.TTL key now).1.ns = minDuration)
    ∧ (maxDuration < item.Expiration.ns - now.ns → (s.TTL key now).1.ns = maxDuration)
    ∧ (item.Expired now = true → (s.TTL key now).1.ns < 0)
    ∧ (s.TTL key now).2 = s
    ∧ (s.TTL key now).2.items.lookup key = some item := by
  have ht : s.TTL key now = (saturate (item.Expiration.ns - now.ns), s) := by
    simp [Storage.TTL, h, Until, Time.Sub]
  rw [ht]
  refine ⟨fun h1 h2 => saturate_ns_of_mem _ h1 h2, fun h1 => saturate_ns_of_lt _ h1,
    fun h1 => saturate_ns_of_gt _ h1, ?_, rfl, h⟩
  intro hx
  apply saturate_ns_neg
  unfold Item.Expired at hx
  split at hx
  · exact Bool.noConfusion hx
  · simp only [Time.After, decide_eq_true_eq] at hx
    omega

/-- Witness of C16: the five-second entry two seconds after it was set, the
same entry six seconds after it was set, and the entry without expiration. -/
theorem ttl_returns_saturated_difference_witness :
    (oneEntry.TTL myKey ⟨63840000002000000000⟩).1.ns
        = (someInstant.Add fiveSeconds).ns - 63840000002000000000
    ∧ (oneEntry.TTL myKey sixSecondsLater).1.ns < 0
    ∧ (eternalEntry.TTL myKey someInstant).1.ns = minDuration :=
  ⟨(ttl_returns_saturated_difference oneEntry ⟨63840000002000000000⟩ myKey
      ⟨some 123456, someInstant.Add fiveSeconds⟩ (by decide)).1 (by decide) (by decide),
   (ttl_returns_saturated_difference oneEntry sixSecondsLater myKey
      ⟨some 123456, someInstant.Add fiveSeconds⟩ (by decide)).2.2.2.1 (by decide),
   (ttl_returns_saturated_difference eternalEntry someInstant myKey
      ⟨some 123456, Time.zero⟩ (by decide)).2.1 (by decide)⟩

/-- C17, as stated, fails: for the key `"bab"` stored with duration zero, `TTL`
six seconds later returns `-2^63` nanoseconds, which is not the zero instant
minus now. -/
theorem ttl_of_eternal_entry_is_not_minus_now :
    (babStorage.TTL babKey sixSecondsLater).1.ns = -9223372036854775808
    ∧ Time.zero.ns - sixSecondsLater.ns = -63840000006000000000
    ∧ (babStorage.TTL babKey sixSecondsLater).1.ns ≠ Time.zero.ns - sixSecondsLater.ns
    ∧ (babStorage.Get babKey sixSecondsLater).1 = some 1 := by
  decide

/-- C17, amended: for a key stored with `Set(key, value, 0)` and every instant
`now` after the zero instant, `TTL(key)` returns a strictly negative duration:
the zero instant minus now when `now` is at most `2^63` nanoseconds after the
zero instant, and the least duration, `-2^63` nanoseconds, at every later
`now`; `Get(key)` at `now` still returns `value`. -/
theorem ttl_of_eternal_entry_negative {V : Type} (s : Storage V) (key : GoString)
    (value : Interface V) (t0 now : Time) (hnow : 0 < now.ns) :
    ((s.Set key value Duration.zero t0).TTL key now).1.ns < 0
    ∧ (now.ns ≤ 2 ^ 63 →
        ((s.Set key value Duration.zero t0).TTL key now).1.ns = Time.zero.ns - now.ns)
    ∧ (2 ^ 63 < now.ns →
        ((s.Set key value Duration.zero t0).TTL key now).1.ns = minDuration)
    ∧ ((s.Set key value Duration.zero t0).Get key now).1 = value := by
  have h0 : (s.Set key value Duration.zero t0).items.lookup key = some ⟨value, Time.zero⟩ := by
    rw [Storage.lookup_Set_self]
    simp [Duration.zero]
  have ht : (s.Set key value Duration.zero t0).TTL key now
      = (saturate (Time.zero.ns - now.ns), s.Set key value Duration.zero t0) := by
    simp [Storage.TTL, h0, Until, Time.Sub]
  have hz : Time.zero.ns = 0 := rfl
  rw [ht]
  refine ⟨saturate_ns_neg _ (by omega), ?_, ?_, ?_⟩
  · intro h
    apply saturate_ns_of_mem
    · unfold minDuration; omega
    · unfold maxDuration; omega
  · intro h
    apply saturate_ns_of_lt
    unfold minDuration; omega
  · rw [Storage.Get_live _ key now _ h0 (by simp [Item.Expired, Time.IsZero, Time.zero])]

/-- Witness of C17: the entry without expiration read in 2024, and read one
second after the zero instant. -/
theorem ttl_of_eternal_entry_negative_witness :
    (eternalEntry.TTL myKey sixSecondsLater).1.ns < 0
    ∧ (eternalEntry.TTL myKey ⟨1000000000⟩).1.ns = Time.zero.ns - 1000000000
    ∧ (eternalEntry.TTL myKey sixSecondsLater).1.ns = minDuration
    ∧ (eternalEntry.Get myKey sixSecondsLater).1 = some 123456 :=
  ⟨(ttl_of_eternal_entry_negative Storage.NewStorage myKey (some 123456) someInstant
      sixSecondsLater (by decide)).1,
   (ttl_of_eternal_entry_negative Storage.NewStorage myKey (some 123456) someInstant
      ⟨1000000000⟩ (by decide)).2.1 (by decide),
   (ttl_of_eternal_entry_negative Storage.NewStorage myKey (some 123456) someInstant
      sixSecondsLater (by decide)).2.2.1 (by decide),
   (ttl_of_eternal_entry_negative Storage.NewStorage myKey (some 123456) someInstant
      sixSecondsLater (by decide)).2.2.2⟩

/-! ## Expired entries, negative durations and nil contents -/

theorem GoMap.mem_keys_of_lookup {T : Type} (m : GoMap T) (k : GoString) (v : T)
    (h : m.lookup k = some v) : k ∈ m.keys := by
  by_contra hn
  rw [← GoMap.lookup_eq_none_iff, h] at hn
  exact Option.noConfusion hn

/-- C18: `Rem` ignores expiration: when the entry of `key` is in the mapping
and expired at `now`, `Rem(key)` returns the stored content and removes the
entry, whereas `Get(key)` at `now` on the same storage returns nil; for a
stored content that is not nil the two results differ. -/
theorem rem_ignores_expiration {V : Type} (s : Storage V) (now : Time) (key : GoString)
    (item : Item V) (h : s.items.lookup key = some item) (hx : item.Expired now = true) :
    s.Rem key = (item.Content, ⟨s.items.delete key⟩)
    ∧ key ∉ (s.Rem key).2.items.keys
    ∧ s.Get key now = (none, ⟨s.items.delete key⟩)
    ∧ (∀ v, item.Content = some v →
        (s.Rem key).1 = some v ∧ (s.Rem key).1 ≠ (s.Get key now).1) := by
  have hr := Storage.Rem_present s key item h
  have hg := Storage.Get_expired s key now item h hx
  rw [hr, hg]
  refine ⟨rfl, GoMap.not_mem_keys_delete _ _, rfl, ?_⟩
  intro v hv
  simp [hv]

/-- Witness of C18: the five-second entry, six seconds after it was set. -/
theorem rem_ignores_expiration_witness :
    oneEntry.Rem myKey = (some 123456, ⟨oneEntry.items.delete myKey⟩)
    ∧ myKey ∉ (oneEntry.Rem myKey).2.items.keys
    ∧ oneEntry.Get myKey sixSecondsLater = (none, ⟨oneEntry.items.delete myKey⟩)
    ∧ ((oneEntry.Rem myKey).1 = some 123456
      ∧ (oneEntry.Rem myKey).1 ≠ (oneEntry.Get myKey sixSecondsLater).1) :=
  ⟨(rem_ignores_expiration oneEntry sixSecondsLater myKey
      ⟨some 123456, someInstant.Add fiveSeconds⟩ (by decide) (by decide)).1,
   (rem_ignores_expiration oneEntry sixSecondsLater myKey
      ⟨some 123456, someInstant.Add fiveSeconds⟩ (by decide) (by decide)).2.1,
   (rem_ignores_expiration oneEntry sixSecondsLater myKey
      ⟨some 123456, someInstant.Add fiveSeconds⟩ (by decide) (by decide)).2.2.1,
   (rem_ignores_expiration oneEntry sixSecondsLater myKey
      ⟨some 123456, someInstant.Add fiveSeconds⟩ (by decide) (by decide)).2.2.2 123456 rfl⟩

/-- C19: a negative duration is accepted and gives an entry that is expired
from the start: after `Set(key, value, d)` at `t0` with `d < 0` and `t0 + d`
not the zero instant, `key` is in the mapping, `Expiration(key)` returns
`t0 + d`, `Keys` returns `key` for the empty pattern and for every pattern
that `key` contains a match of, but `Get(key)` at every instant `t1 ≥ t0`
returns nil and deletes the entry. -/
theorem negative_duration_expired_from_start {V : Type} (s : Storage V) (key : GoString)
    (value : Interface V) (d : Duration) (t0 : Time)
    (hd : d.ns < 0) (hz : t0.ns + d.ns ≠ 0) :
    key ∈ (s.Set key value d t0).items.keys
    ∧ ((s.Set key value d t0).Expiration key).1 = ⟨t0.ns + d.ns⟩
    ∧ key ∈ ((s.Set key value d t0).Keys Regexp.emp).1
    ∧ (∀ re, (∃ i j, i ≤ key.length ∧ Regexp.Matches key re i j) →
        key ∈ ((s.Set key value d t0).Keys re).1)
    ∧ (∀ t1, t0.ns ≤ t1.ns →
        (s.Set key value d t0).Get key t1 = (none, ⟨(s.Set key value d t0).items.delete key⟩)
        ∧ key ∉ ((s.Set key value d t0).Get key t1).2.items.keys) := by
  have hne : d.ns ≠ 0 := by omega
  have hl : (s.Set key value d t0).items.lookup key = some ⟨value, t0.Add d⟩ := by
    rw [Storage.lookup_Set_self, if_neg hne]
  have hmem := GoMap.mem_keys_of_lookup _ _ _ hl
  have hkeys : ∀ re, (∃ i j, i ≤ key.length ∧ Regexp.Matches key re i j) →
      key ∈ ((s.Set key value d t0).Keys re).1 := by
    intro re hm
    rw [Storage.Keys_eq_filter, List.mem_filter]
    exact ⟨hmem, (Regexp.MatchString_iff re key).mpr hm⟩
  refine ⟨hmem, ?_, hkeys Regexp.emp ⟨0, 0, Nat.zero_le _, Regexp.Matches.emp 0⟩, hkeys, ?_⟩
  · simp [Storage.Expiration, hl, Time.Add]
  · intro t1 h1
    have hx : (⟨value, t0.Add d⟩ : Item V).Expired t1 = true := by
      have : t0.ns + d.ns < t1.ns := by omega
      simp [Item.Expired, Time.IsZero, Time.After, Time.Add, hz, this]
    rw [Storage.Get_expired _ key t1 _ hl hx]
    exact ⟨rfl, GoMap.not_mem_keys_delete _ _⟩

/-- Witness of C19: `Set("MY_KEY", 123456, -5s)` on the empty storage, read at
the instant of the `Set`. -/
theorem negative_duration_expired_from_start_witness :
    myKey ∈ (Storage.Set (Storage.NewStorage : Storage Nat) myKey (some 123456)
        minusFiveSeconds someInstant).items.keys
    ∧ (Storage.Set (Storage.NewStorage : Storage Nat) myKey (some 123456)
        minusFiveSeconds someInstant).Get myKey someInstant
      = (none, ⟨(Storage.Set (Storage.NewStorage : Storage Nat) myKey (some 123456)
          minusFiveSeconds someInstant).items.delete myKey⟩) :=
  ⟨(negative_duration_expired_from_start Storage.NewStorage myKey (some 123456)
      minusFiveSeconds someInstant (by decide) (by decide)).1,
   ((negative_duration_expired_from_start Storage.NewStorage myKey (some 123456)
      minusFiveSeconds someInstant (by decide) (by decide)).2.2.2.2
        someInstant (by decide)).1⟩

/-- C20: the result of `Get` and of `Rem` does not determine presence: after
`Set(key, nil, 0)` the key is in the mapping with an entry that is not expired,
yet `Get(key)` and `Rem(key)` return nil, the result they return for a key that
is not in the mapping; and `Get(key)` returns a result that is not nil only if
`key` is in the mapping with an entry that is not expired and whose content is
that result. -/
theorem nil_result_does_not_determine_presence {V : Type} (s : Storage V)
    (key : GoString) (t0 now : Time) :
    key ∈ (s.Set key none Duration.zero t0).items.keys
    ∧ (∃ item, (s.Set key none Duration.zero t0).items.lookup key = some item
        ∧ item.Expired now = false)
    ∧ ((s.Set key none Duration.zero t0).Get key now).1 = none
    ∧ ((s.Set key none Duration.zero t0).Rem key).1 = none
    ∧ (key ∉ s.items.keys → (s.Get key now).1 = none ∧ (s.Rem key).1 = none)
    ∧ (∀ (s' : Storage V) (k : GoString) (t : Time) (v : V), (s'.Get k t).1 = some v →
        ∃ item, s'.items.lookup k = some item ∧ item.Expired t = false
          ∧ item.Content = some v) := by
  have h0 : (s.Set key none Duration.zero t0).items.lookup key = some ⟨none, Time.zero⟩ := by
    rw [Storage.lookup_Set_self]
    simp [Duration.zero]
  have hx : (⟨none, Time.zero⟩ : Item V).Expired now = false := by
    simp [Item.Expired, Time.IsZero, Time.zero]
  refine ⟨GoMap.mem_keys_of_lookup _ _ _ h0, ⟨_, h0, hx⟩, ?_, ?_, ?_, ?_⟩
  · rw [Storage.Get_live _ key now _ h0 hx]
  · rw [Storage.Rem_present _ key _ h0]
  · intro h
    have hl := (GoMap.lookup_eq_none_iff _ _).mpr h
    rw [Storage.Get_absent s key now hl, Storage.Rem_absent s key hl]
    exact ⟨rfl, rfl⟩
  · intro s' k t v hv
    unfold Storage.Get at hv
    cases hl : s'.items.lookup k with
    | none =>
      rw [hl] at hv
      exact Option.noConfusion hv
    | some item =>
      rw [hl] at hv
      cases hx' : item.Expired t with
      | true =>
        simp [hx'] at hv
      | false =>
        simp [hx'] at hv
        exact ⟨item, rfl, hx', hv⟩

/-- Witness of C20: the key `"NOTHING"`, absent from the storage that holds
the nil content under `"MY_KEY"`, and the result of `Get("MY_KEY")` on the
five-second entry two seconds after it was set. -/
theorem nil_result_does_not_determine_presence_witness :
    ((nilEntry.Get nothingKey someInstant).1 = none ∧ (nilEntry.Rem nothingKey).1 = none)
    ∧ (∃ item, oneEntry.items.lookup myKey = some item
        ∧ item.Expired ⟨63840000002000000000⟩ = false ∧ item.Content = some 123456) :=
  ⟨(nil_result_does_not_determine_presence nilEntry nothingKey someInstant someInstant).2.2.2.2.1
      (by decide),
   (nil_result_does_not_determine_presence nilEntry nothingKey someInstant someInstant).2.2.2.2.2
      oneEntry myKey ⟨63840000002000000000⟩ 123456 (by decide)⟩

end Cache
